import Mathlib

/-!
# PokerLedger core logic: a shallow embedding

This file embeds the pure computational core of the PokerLedger
repository (`src/utils/logic.ts`) in Lean 4 and proves the testable
properties stated in its specification.

Modelling conventions:
* JavaScript `number` values are modelled as exact rationals (`ℚ`); the
  spec treats buy-ins and cash-outs as finite real numbers.
* `Number(x.toFixed(2))` is modelled by `round2`, rounding to the
  nearest cent with ties away from the smaller value (toward `+∞`),
  which is the `toFixed` tie-breaking rule.
* JavaScript `Map` objects and plain objects used as string-keyed
  dictionaries are modelled as association lists (`List (String × _)`)
  with JS insertion semantics: updating an existing key keeps its
  position, inserting a new key appends it at the end.
* `Array.prototype.sort` (stable in ES2019+) is modelled by a stable
  insertion sort on the comparator key.
* The `while` loop of the settlement sweep is modelled step-indexed
  (`sweepFuel`), with a proof that the fuel supplied by
  `calculateSettlements` always suffices (the loop terminates).
* Chart score values are `Option ℚ` where `none` models `NaN`
  (reading an absent object key yields `undefined`, and
  `undefined + x` is `NaN`; `NaN + x` stays `NaN`).
* `GameSession.date` is modelled as the integer timestamp that
  `new Date(s.date).getTime()` yields; date-string parsing itself is a
  host concern outside the core.
-/

/-- Player record (`src/types.ts`). -/
structure Player where
  id : String
  name : String
  avatar : Option String
  totalWinnings : ℚ
  gamesPlayed : Nat
  deriving Repr, DecidableEq

/-- Per-player session input (`src/types.ts`). -/
structure PlayerSessionInput where
  playerId : String
  buyIn : ℚ
  cashOut : ℚ
  deriving Repr, DecidableEq

/-- A directed payment instruction (`src/types.ts`). -/
structure Settlement where
  fromId : String
  toId : String
  amount : ℚ
  deriving Repr, DecidableEq

/-- A stored game session (`src/types.ts`); `date` is the parsed timestamp. -/
structure GameSession where
  id : String
  date : Int
  players : List PlayerSessionInput
  settlements : List Settlement
  deriving Repr, DecidableEq

/-- The data carried by the imbalance error message of
`calculateSettlements`: the two totals and their signed difference,
each as rendered by `toFixed(2)`. -/
structure ImbalanceError where
  buyIns : ℚ
  cashOuts : ℚ
  diff : ℚ
  deriving Repr, DecidableEq

/-- Return shape of `calculateSettlements`. -/
structure SolveResult where
  settlements : List Settlement
  error : Option ImbalanceError
  deriving Repr, DecidableEq

/-- `Number(q.toFixed(2))`: round to the nearest cent, ties toward `+∞`. -/
def round2 (q : ℚ) : ℚ := (⌊q * 100 + 1 / 2⌋ : ℚ) / 100

/-- A debtor or creditor entry of the sweep (`{ id, amount }`). -/
structure IdAmount where
  id : String
  amount : ℚ
  deriving Repr, DecidableEq

/-- One insertion step of the stable descending-by-amount sort used for
the debtor and creditor lists (`sort((a, b) => b.amount - a.amount)`):
a new element goes after every element whose amount is `≥` its own. -/
def insDesc (a : IdAmount) : List IdAmount → List IdAmount
  | [] => [a]
  | b :: l => if b.amount < a.amount then a :: b :: l else b :: insDesc a l

/-- Stable sort, descending by `amount`. -/
def sortDesc (l : List IdAmount) : List IdAmount :=
  l.foldl (fun acc a => insDesc a acc) []

/-- `totalBuyIn` of `calculateSettlements`. -/
def totalBuyIn (inputs : List PlayerSessionInput) : ℚ :=
  inputs.foldl (fun sum p => sum + p.buyIn) 0

/-- `totalCashOut` of `calculateSettlements`. -/
def totalCashOut (inputs : List PlayerSessionInput) : ℚ :=
  inputs.foldl (fun sum p => sum + p.cashOut) 0

/-- The debtor list of `calculateSettlements`: records with
`net < -0.01`, by magnitude, sorted descending. -/
def debtorsOf (inputs : List PlayerSessionInput) : List IdAmount :=
  sortDesc (inputs.filterMap fun p =>
    if p.cashOut - p.buyIn < -(1 / 100) then
      some ⟨p.playerId, |p.cashOut - p.buyIn|⟩
    else none)

/-- The creditor list of `calculateSettlements`: records with
`net > 0.01` (the `else if` branch), sorted descending. -/
def creditorsOf (inputs : List PlayerSessionInput) : List IdAmount :=
  sortDesc (inputs.filterMap fun p =>
    if p.cashOut - p.buyIn < -(1 / 100) then none
    else if p.cashOut - p.buyIn > 1 / 100 then
      some ⟨p.playerId, p.cashOut - p.buyIn⟩
    else none)

/-- The two-pointer sweep of `calculateSettlements`, step-indexed.
Each iteration settles `min` of the two head amounts, records it
rounded to cents, and drops any side whose remainder fell below the
`0.01` epsilon (advancing the corresponding index in the source). -/
def sweepFuel : Nat → List IdAmount → List IdAmount → Option (List Settlement)
  | 0, _, _ => none
  | _ + 1, [], _ => some []
  | _ + 1, _ :: _, [] => some []
  | n + 1, d :: ds, c :: cs =>
    let amount := min d.amount c.amount
    let st : Settlement := ⟨d.id, c.id, round2 amount⟩
    let da := d.amount - amount
    let ca := c.amount - amount
    let ds' := if da < 1 / 100 then ds else ⟨d.id, da⟩ :: ds
    let cs' := if ca < 1 / 100 then cs else ⟨c.id, ca⟩ :: cs
    (sweepFuel n ds' cs').map (fun rest => st :: rest)

/-- `calculateSettlements` (`src/utils/logic.ts`): balance check, then
partition into debtors/creditors, greedy largest-first matching. -/
def calculateSettlements (inputs : List PlayerSessionInput) : SolveResult :=
  let tb := totalBuyIn inputs
  let tc := totalCashOut inputs
  if |tb - tc| > 1 / 100 then
    { settlements := []
      error := some ⟨round2 tb, round2 tc, round2 (tc - tb)⟩ }
  else
    let debtors := debtorsOf inputs
    let creditors := creditorsOf inputs
    { settlements :=
        (sweepFuel (debtors.length + creditors.length + 1) debtors creditors).getD []
      error := none }

/-! ## Ledger aggregator -/

/-- Association-list lookup with JS `Map.get` / object-read semantics. -/
def alistGet {α : Type} (m : List (String × α)) (k : String) : Option α :=
  match m with
  | [] => none
  | (k', v) :: m => if k' = k then some v else alistGet m k

/-- Replace the value at an existing key, keeping its position
(JS `Map.set` / object write on a present key). -/
def alistSet {α : Type} (m : List (String × α)) (k : String) (v : α) :
    List (String × α) :=
  match m with
  | [] => []
  | (k', v') :: m =>
    if k' = k then (k', v) :: m else (k', v') :: alistSet m k v

/-- JS upsert: update in place if the key exists, else append at the end. -/
def alistUpsert {α : Type} (m : List (String × α)) (k : String) (v : α) :
    List (String × α) :=
  if (alistGet m k).isSome then alistSet m k v else m ++ [(k, v)]

/-- A player with its stats reset (`{ ...p, totalWinnings: 0, gamesPlayed: 0 }`). -/
def resetStats (p : Player) : Player :=
  { p with totalWinnings := 0, gamesPlayed := 0 }

/-- The `playerMap` of `recalculatePlayerStats`: a `Map` from id to the
player with stats reset (`new Map(players.map(p => [p.id, {...}]))`). -/
def mapFromPlayers (players : List Player) : List (String × Player) :=
  players.foldl (fun m p => alistUpsert m p.id (resetStats p)) []

/-- One insertion step of the stable ascending-by-date sort
(`sort((a, b) => date(a) - date(b))`): a new element goes after every
element whose date is `≤` its own. -/
def insByDate (s : GameSession) : List GameSession → List GameSession
  | [] => [s]
  | t :: l => if s.date < t.date then s :: t :: l else t :: insByDate s l

/-- Stable sort of sessions, ascending by date. -/
def sortByDate (l : List GameSession) : List GameSession :=
  l.foldl (fun acc s => insByDate s acc) []

/-- Processing one session record inside `recalculatePlayerStats`:
if the id is in the map, bump `gamesPlayed` and add the net. -/
def applyRecord (m : List (String × Player)) (r : PlayerSessionInput) :
    List (String × Player) :=
  match alistGet m r.playerId with
  | none => m
  | some p =>
    alistSet m r.playerId
      { p with
        gamesPlayed := p.gamesPlayed + 1
        totalWinnings := p.totalWinnings + (r.cashOut - r.buyIn) }

/-- Processing one session inside `recalculatePlayerStats`. -/
def applySession (m : List (String × Player)) (s : GameSession) :
    List (String × Player) :=
  s.players.foldl applyRecord m

/-- `recalculatePlayerStats` (`src/utils/logic.ts`): reset all stats,
then replay the date-sorted session history. -/
def recalculatePlayerStats (players : List Player) (sessions : List GameSession) :
    List Player :=
  ((sortByDate sessions).foldl applySession (mapFromPlayers players)).map
    (fun e => e.2)

/-! ## Chart data -/

/-- A chart score value: `none` models JavaScript `NaN` (reading an
absent key yields `undefined`; `undefined + x` and `NaN + x` are `NaN`). -/
abbrev ScoreMap : Type := List (String × Option ℚ)

/-- A point of the chart. -/
structure ChartPoint where
  label : String
  scores : ScoreMap
  deriving Repr, DecidableEq

/-- `newScores[p.playerId] += net`: an absent key reads `undefined` and
stores `NaN`; a `NaN` value stays `NaN`; a numeric value accumulates. -/
def updateScore (m : ScoreMap) (k : String) (net : ℚ) : ScoreMap :=
  match alistGet m k with
  | none => m ++ [(k, none)]
  | some o => alistSet m k (o.map (fun v => v + net))

/-- `players.reduce((acc, p) => ({ ...acc, [p.id]: 0 }), {})`. -/
def initScores (players : List Player) : ScoreMap :=
  players.foldl (fun m p => alistUpsert m p.id (some 0)) []

/-- Applying one session to the running chart scores. -/
def applySessionScores (m : ScoreMap) (s : GameSession) : ScoreMap :=
  s.players.foldl (fun m r => updateScore m r.playerId (r.cashOut - r.buyIn)) m

/-- The per-session points of `generateChartData` after the `Start` point. -/
def chartSteps (cur : ScoreMap) : List GameSession → Nat → List ChartPoint
  | [], _ => []
  | s :: rest, idx =>
    let ns := applySessionScores cur s
    ⟨s!"G{idx + 1}", ns⟩ :: chartSteps ns rest (idx + 1)

/-- `generateChartData` (`src/utils/logic.ts`): a `Start` point of all
zeros for the roster, then one cumulative point per date-sorted session. -/
def generateChartData (players : List Player) (sessions : List GameSession) :
    List ChartPoint :=
  ⟨"Start", initScores players⟩ ::
    chartSteps (initScores players) (sortByDate sessions) 0

/-! ## Observation helpers used to state the properties -/

/-- Sum of the amounts of the settlements paid by `x`. -/
def sumFromId (x : String) : List Settlement → ℚ
  | [] => 0
  | s :: l => (if s.fromId = x then s.amount else 0) + sumFromId x l

/-- Number of settlements paid by `x`. -/
def countFromId (x : String) : List Settlement → Nat
  | [] => 0
  | s :: l => (if s.fromId = x then 1 else 0) + countFromId x l

/-- Sum of the amounts of the settlements received by `x`. -/
def sumToId (x : String) : List Settlement → ℚ
  | [] => 0
  | s :: l => (if s.toId = x then s.amount else 0) + sumToId x l

/-- Number of settlements received by `x`. -/
def countToId (x : String) : List Settlement → Nat
  | [] => 0
  | s :: l => (if s.toId = x then 1 else 0) + countToId x l

/-- Total amount attributed to id `x` in a debtor/creditor list. -/
def amountOfId (x : String) : List IdAmount → ℚ
  | [] => 0
  | e :: l => (if e.id = x then e.amount else 0) + amountOfId x l

/-- Sessions with every record whose `playerId` is unknown to the
players list removed (the comparison object of the unknown-reference
tolerance property). -/
def dropUnknownRecords (players : List Player) (sessions : List GameSession) :
    List GameSession :=
  sessions.map fun s =>
    { s with players := s.players.filter fun r =>
        (players.map Player.id).contains r.playerId }

/-- The last chart point (the chart is never empty: it starts at `Start`). -/
def lastChartPoint (players : List Player) (sessions : List GameSession) :
    ChartPoint :=
  (generateChartData players sessions).getLastD ⟨"", []⟩

/-- A balanced input on which per-player conservation fails: the three
break-even players sit exactly at the `0.01` exclusion epsilon, so the
lone creditor can absorb only `0.02` of D's `0.05` debt. -/
def epsilonAbsorbInputs : List PlayerSessionInput :=
  [⟨"D", 5 / 100, 0⟩, ⟨"C", 0, 2 / 100⟩,
   ⟨"E1", 0, 1 / 100⟩, ⟨"E2", 0, 1 / 100⟩, ⟨"E3", 0, 1 / 100⟩]

/-- Two players sharing one id: input of the duplicate-id counterexample. -/
def duplicateIdPlayers : List Player :=
  [⟨"a", "Ann", none, 0, 0⟩, ⟨"a", "Bob", none, 0, 0⟩]

/-! ## Theorems -/

/-- C5: on the input A(buyIn 50, cashOut 0), B(50, 150), C(50, 0),
`calculateSettlements` succeeds and returns exactly (A pays B 50) then
(C pays B 50), in that order. -/
theorem settlements_concrete_scenario :
    calculateSettlements [⟨"A", 50, 0⟩, ⟨"B", 50, 150⟩, ⟨"C", 50, 0⟩] =
      { settlements := [⟨"A", "B", 50⟩, ⟨"C", "B", 50⟩], error := none } := by
  norm_num [calculateSettlements, totalBuyIn, totalCashOut, debtorsOf,
    creditorsOf, sortDesc, insDesc, List.foldl, List.filterMap, sweepFuel,
    round2]

/-- C2: `calculateSettlements` fails exactly when
`|totalBuyIn - totalCashOut| > 0.01`; on failure the error carries the
two totals and the signed difference `totalCashOut - totalBuyIn`, each
as rendered to two decimal places, and the settlements list is empty. -/
theorem balance_check_iff (inputs : List PlayerSessionInput) :
    ((calculateSettlements inputs).error ≠ none ↔
        |totalBuyIn inputs - totalCashOut inputs| > 1 / 100) ∧
    (∀ e, (calculateSettlements inputs).error = some e →
        (calculateSettlements inputs).settlements = [] ∧
        e = ⟨round2 (totalBuyIn inputs), round2 (totalCashOut inputs),
          round2 (totalCashOut inputs - totalBuyIn inputs)⟩) := by
  by_cases h : |totalBuyIn inputs - totalCashOut inputs| > 1 / 100
  · simp only [calculateSettlements, if_pos h]
    simpa using h
  · simp only [calculateSettlements, if_neg h]
    simpa using h

/-- Witness for C2, at the spec's imbalance scenario (totals 150 vs
160): the call fails and returns no settlements. -/
theorem balance_check_iff_witness :
    (calculateSettlements [⟨"A", 50, 0⟩, ⟨"B", 50, 160⟩, ⟨"C", 50, 0⟩]).error ≠
        none ∧
    (calculateSettlements [⟨"A", 50, 0⟩, ⟨"B", 50, 160⟩, ⟨"C", 50, 0⟩]).settlements =
        [] := by
  have h := balance_check_iff [⟨"A", 50, 0⟩, ⟨"B", 50, 160⟩, ⟨"C", 50, 0⟩]
  have himb : |totalBuyIn [⟨"A", 50, 0⟩, ⟨"B", 50, 160⟩, ⟨"C", 50, 0⟩] -
      totalCashOut [⟨"A", 50, 0⟩, ⟨"B", 50, 160⟩, ⟨"C", 50, 0⟩]| > 1 / 100 := by
    norm_num [totalBuyIn, totalCashOut, List.foldl]
  have herr := h.1.mpr himb
  refine ⟨herr, ?_⟩
  obtain ⟨e, he⟩ := Option.ne_none_iff_exists'.mp herr
  exact (h.2 e he).1

/-! ### Sweep termination -/

theorem insDesc_perm (a : IdAmount) (l : List IdAmount) :
    List.Perm (insDesc a l) (a :: l) := by
  induction l with
  | nil => exact List.Perm.refl _
  | cons b l ih =>
    unfold insDesc
    split_ifs
    · exact List.Perm.refl _
    · exact (ih.cons b).trans (List.Perm.swap a b l)

theorem foldl_insDesc_perm (l : List IdAmount) :
    ∀ acc, List.Perm (l.foldl (fun acc a => insDesc a acc) acc) (acc ++ l) := by
  induction l with
  | nil => intro acc; simp
  | cons a l ih =>
    intro acc
    have h1 : (a :: l).foldl (fun acc a => insDesc a acc) acc =
        l.foldl (fun acc a => insDesc a acc) (insDesc a acc) := rfl
    rw [h1]
    refine (ih (insDesc a acc)).trans ?_
    refine (((insDesc_perm a acc).append_right l).trans ?_)
    exact List.perm_middle.symm

theorem sortDesc_perm (l : List IdAmount) : List.Perm (sortDesc l) l := by
  simpa using foldl_insDesc_perm l []

/-- Each sweep iteration advances at least one of the two pointers, so
fuel exceeding the combined list length always suffices. -/
theorem sweepFuel_isSome :
    ∀ (n : Nat) (ds cs : List IdAmount), ds.length + cs.length < n →
      (sweepFuel n ds cs).isSome = true := by
  intro n
  induction n with
  | zero => intro ds cs h; omega
  | succ n ih =>
    intro ds cs h
    match ds, cs with
    | [], _ => simp [sweepFuel]
    | _ :: _, [] => simp [sweepFuel]
    | d :: ds, c :: cs =>
      have hmin : min d.amount c.amount = d.amount ∨
          min d.amount c.amount = c.amount := min_choice _ _
      simp only [sweepFuel, Option.isSome_map']
      split_ifs with hd hc hc
      · apply ih
        simp only [List.length_cons] at h ⊢
        omega
      · apply ih
        simp only [List.length_cons] at h ⊢
        omega
      · apply ih
        simp only [List.length_cons] at h ⊢
        omega
      · exfalso
        rcases hmin with hm | hm
        · rw [hm] at hd; simp at hd
        · rw [hm] at hc; simp at hc

/-- The sweep emits at most `#debtors + #creditors - 1` settlements. -/
theorem sweepFuel_length_le :
    ∀ (n : Nat) (ds cs : List IdAmount) (l : List Settlement),
      sweepFuel n ds cs = some l → l.length ≤ ds.length + cs.length - 1 := by
  intro n
  induction n with
  | zero => intro ds cs l h; simp [sweepFuel] at h
  | succ n ih =>
    intro ds cs l h
    match ds, cs with
    | [], _ =>
      simp [sweepFuel] at h
      subst h
      simp
    | _ :: _, [] =>
      simp [sweepFuel] at h
      subst h
      simp
    | d :: ds, c :: cs =>
      have hmin : min d.amount c.amount = d.amount ∨
          min d.amount c.amount = c.amount := min_choice _ _
      simp only [sweepFuel, Option.map_eq_some'] at h
      obtain ⟨rest, hrest, hl⟩ := h
      subst hl
      split_ifs at hrest with hd hc hc
      · have := ih _ _ _ hrest
        simp only [List.length_cons]
        omega
      · have := ih _ _ _ hrest
        simp only [List.length_cons] at this ⊢
        omega
      · have := ih _ _ _ hrest
        simp only [List.length_cons] at this ⊢
        omega
      · exfalso
        rcases hmin with hm | hm
        · rw [hm] at hd; simp at hd
        · rw [hm] at hc; simp at hc

theorem length_debtorsOf (inputs : List PlayerSessionInput) :
    (debtorsOf inputs).length =
      inputs.countP fun p => decide (p.cashOut - p.buyIn < -(1 / 100)) := by
  unfold debtorsOf
  rw [(sortDesc_perm _).length_eq]
  induction inputs with
  | nil => rfl
  | cons p l ih =>
    rw [List.filterMap_cons, List.countP_cons]
    by_cases h : p.cashOut - p.buyIn < -(1 / 100)
    · rw [if_pos h, List.length_cons, ih, if_pos (by simpa using h)]
    · rw [if_neg h, ih, if_neg (by simpa using h)]
      omega

theorem length_creditorsOf (inputs : List PlayerSessionInput) :
    (creditorsOf inputs).length =
      inputs.countP fun p => decide (p.cashOut - p.buyIn > 1 / 100) := by
  unfold creditorsOf
  rw [(sortDesc_perm _).length_eq]
  induction inputs with
  | nil => rfl
  | cons p l ih =>
    rw [List.filterMap_cons, List.countP_cons]
    by_cases h1 : p.cashOut - p.buyIn < -(1 / 100)
    · have h2 : ¬ p.cashOut - p.buyIn > 1 / 100 := by linarith
      rw [if_pos h1, ih, if_neg (by simpa using h2)]
      omega
    · by_cases h2 : p.cashOut - p.buyIn > 1 / 100
      · rw [if_neg h1, if_pos h2, List.length_cons, ih,
          if_pos (by simpa using h2)]
      · rw [if_neg h1, if_neg h2, ih, if_neg (by simpa using h2)]
        omega

/-- C6: the two-pointer sweep terminates on every input (the fuel
`#debtors + #creditors + 1` supplied by `calculateSettlements` always
reaches a base case), and the number of settlements emitted is at most
`#debtors + #creditors - 1`, counting records with `net < -0.01` and
`net > 0.01` respectively. -/
theorem sweep_terminates_and_count_bound (inputs : List PlayerSessionInput) :
    (sweepFuel ((debtorsOf inputs).length + (creditorsOf inputs).length + 1)
        (debtorsOf inputs) (creditorsOf inputs)).isSome = true ∧
    (calculateSettlements inputs).settlements.length ≤
      (inputs.countP fun p => decide (p.cashOut - p.buyIn < -(1 / 100))) +
        (inputs.countP fun p => decide (p.cashOut - p.buyIn > 1 / 100)) - 1 := by
  have hsome := sweepFuel_isSome
    ((debtorsOf inputs).length + (creditorsOf inputs).length + 1)
    (debtorsOf inputs) (creditorsOf inputs) (by omega)
  refine ⟨hsome, ?_⟩
  by_cases hb : |totalBuyIn inputs - totalCashOut inputs| > 1 / 100
  · simp only [calculateSettlements, if_pos hb]
    simp
  · simp only [calculateSettlements, if_neg hb]
    obtain ⟨l, hl⟩ := Option.isSome_iff_exists.mp hsome
    rw [hl]
    have hle := sweepFuel_length_le _ _ _ _ hl
    rw [length_debtorsOf, length_creditorsOf] at hle
    simpa using hle

/-! ### No self-settlement -/

/-- Every emitted settlement draws its payer from the debtor list and
its receiver from the creditor list. -/
theorem sweepFuel_mem_ids :
    ∀ (n : Nat) (ds cs : List IdAmount) (l : List Settlement),
      sweepFuel n ds cs = some l → ∀ s ∈ l,
        s.fromId ∈ ds.map IdAmount.id ∧ s.toId ∈ cs.map IdAmount.id := by
  intro n
  induction n with
  | zero => intro ds cs l h; simp [sweepFuel] at h
  | succ n ih =>
    intro ds cs l h s hs
    match ds, cs with
    | [], _ =>
      simp [sweepFuel] at h
      subst h
      simp at hs
    | _ :: _, [] =>
      simp [sweepFuel] at h
      subst h
      simp at hs
    | d :: ds, c :: cs =>
      simp only [sweepFuel, Option.map_eq_some'] at h
      obtain ⟨rest, hrest, hl⟩ := h
      subst hl
      rcases List.mem_cons.mp hs with hs | hs
      · subst hs
        simp
      · have hih := ih _ _ _ hrest s hs
        constructor
        · rcases hih with ⟨h1, _⟩
          revert h1
          split_ifs with hd <;> intro h1 <;> simp at h1 ⊢ <;> tauto
        · rcases hih with ⟨_, h2⟩
          revert h2
          split_ifs <;> intro h2 <;> simp at h2 ⊢ <;> tauto

/-- A debtor-list id comes from a record with `net < -0.01`. -/
theorem mem_debtors_ids {inputs : List PlayerSessionInput} {x : String}
    (hx : x ∈ (debtorsOf inputs).map IdAmount.id) :
    ∃ p ∈ inputs, p.playerId = x ∧ p.cashOut - p.buyIn < -(1 / 100) := by
  unfold debtorsOf at hx
  rw [((sortDesc_perm _).map IdAmount.id).mem_iff] at hx
  obtain ⟨e, he, hex⟩ := List.mem_map.mp hx
  obtain ⟨p, hp, hpe⟩ := List.mem_filterMap.mp he
  by_cases hc : p.cashOut - p.buyIn < -(1 / 100)
  · rw [if_pos hc] at hpe
    refine ⟨p, hp, ?_, hc⟩
    cases hpe
    simpa using hex
  · rw [if_neg hc] at hpe
    cases hpe

/-- A creditor-list id comes from a record with `net > 0.01`. -/
theorem mem_creditors_ids {inputs : List PlayerSessionInput} {x : String}
    (hx : x ∈ (creditorsOf inputs).map IdAmount.id) :
    ∃ p ∈ inputs, p.playerId = x ∧ p.cashOut - p.buyIn > 1 / 100 := by
  unfold creditorsOf at hx
  rw [((sortDesc_perm _).map IdAmount.id).mem_iff] at hx
  obtain ⟨e, he, hex⟩ := List.mem_map.mp hx
  obtain ⟨p, hp, hpe⟩ := List.mem_filterMap.mp he
  by_cases h1 : p.cashOut - p.buyIn < -(1 / 100)
  · rw [if_pos h1] at hpe
    cases hpe
  · rw [if_neg h1] at hpe
    by_cases h2 : p.cashOut - p.buyIn > 1 / 100
    · rw [if_pos h2] at hpe
      refine ⟨p, hp, ?_, h2⟩
      cases hpe
      simpa using hex
    · rw [if_neg h2] at hpe
      cases hpe

/-- C7: with unique player ids and a passing balance check, no returned
settlement pays a player to itself. -/
theorem no_self_settlement (inputs : List PlayerSessionInput)
    (hnd : (inputs.map PlayerSessionInput.playerId).Nodup)
    (hbal : |totalBuyIn inputs - totalCashOut inputs| ≤ 1 / 100) :
    ∀ s ∈ (calculateSettlements inputs).settlements, s.fromId ≠ s.toId := by
  intro s hs heq
  have hb : ¬ |totalBuyIn inputs - totalCashOut inputs| > 1 / 100 :=
    not_lt.mpr hbal
  simp only [calculateSettlements, if_neg hb] at hs
  obtain ⟨l, hl⟩ := Option.isSome_iff_exists.mp
    (sweepFuel_isSome ((debtorsOf inputs).length + (creditorsOf inputs).length + 1)
      (debtorsOf inputs) (creditorsOf inputs) (by omega))
  rw [hl] at hs
  simp only [Option.getD_some] at hs
  have hmem := sweepFuel_mem_ids _ _ _ _ hl s hs
  obtain ⟨p, hp, hpid, hpcond⟩ := mem_debtors_ids hmem.1
  obtain ⟨q, hq, hqid, hqcond⟩ := mem_creditors_ids hmem.2
  have hpq : p = q := by
    have hids : p.playerId = q.playerId := by rw [hpid, hqid, heq]
    exact List.inj_on_of_nodup_map hnd hp hq hids
  rw [hpq] at hpcond
  linarith

/-- Witness for C7 at a two-player input: every settlement of the call
has distinct payer and receiver. -/
theorem no_self_settlement_witness :
    (calculateSettlements [⟨"X", 30, 0⟩, ⟨"Y", 0, 30⟩]).settlements.Forall
      (fun s => s.fromId ≠ s.toId) := by
  rw [List.forall_iff_forall_mem]
  apply no_self_settlement
  · simp
  · norm_num [totalBuyIn, totalCashOut, List.foldl]

/-! ### Conservation bounds -/

theorem round2_le (q : ℚ) : round2 q ≤ q + 1 / 200 := by
  unfold round2
  have h := Int.floor_le (q * 100 + 1 / 2)
  rw [div_le_iff₀ (by norm_num : (0:ℚ) < 100)]
  linarith

theorem amountOfId_nonneg {x : String} {l : List IdAmount}
    (h : ∀ e ∈ l, 0 ≤ e.amount) : 0 ≤ amountOfId x l := by
  induction l with
  | nil => simp [amountOfId]
  | cons e l ih =>
    have he := h e (List.mem_cons_self e l)
    have hl := ih fun e' he' => h e' (List.mem_cons_of_mem e he')
    unfold amountOfId
    split_ifs <;> linarith

/-- Per-payer accounting of the sweep: the recorded (rounded) amounts
paid by `x` never exceed `x`'s total in the debtor list plus a
half-cent of rounding slack per settlement. -/
theorem sweepFuel_sumFrom_le :
    ∀ (n : Nat) (ds cs : List IdAmount) (l : List Settlement) (x : String),
      (∀ e ∈ ds, 0 ≤ e.amount) → sweepFuel n ds cs = some l →
      sumFromId x l ≤ amountOfId x ds + (countFromId x l : ℚ) / 200 := by
  intro n
  induction n with
  | zero => intro ds cs l x _ h; simp [sweepFuel] at h
  | succ n ih =>
    intro ds cs l x hds h
    match ds, cs with
    | [], _ =>
      simp [sweepFuel] at h
      subst h
      simp [sumFromId, countFromId, amountOfId]
    | _ :: _, [] =>
      simp [sweepFuel] at h
      subst h
      simp only [sumFromId, countFromId, amountOfId]
      simpa using amountOfId_nonneg hds
    | d :: ds, c :: cs =>
      simp only [sweepFuel, Option.map_eq_some'] at h
      obtain ⟨rest, hrest, hl⟩ := h
      subst hl
      have hdnn : 0 ≤ d.amount := hds d (List.mem_cons_self d ds)
      have hmin_d : min d.amount c.amount ≤ d.amount := min_le_left _ _
      have hr2 := round2_le (min d.amount c.amount)
      simp only [sumFromId, countFromId, amountOfId]
      split_ifs at hrest with hd hc hc
      · -- both remainders below epsilon: both advance
        have hih := ih ds cs rest x
          (fun e he => hds e (List.mem_cons_of_mem d he)) hrest
        by_cases hx : d.id = x
        · simp only [hx, if_pos rfl]
          push_cast
          linarith
        · simp only [if_neg hx]
          push_cast
          linarith
      · -- debtor exhausted, creditor kept
        have hih := ih ds (⟨c.id, c.amount - min d.amount c.amount⟩ :: cs) rest x
          (fun e he => hds e (List.mem_cons_of_mem d he)) hrest
        by_cases hx : d.id = x
        · simp only [hx, if_pos rfl]
          push_cast
          linarith
        · simp only [if_neg hx]
          push_cast
          linarith
      · -- debtor kept, creditor exhausted
        have hih := ih (⟨d.id, d.amount - min d.amount c.amount⟩ :: ds) cs rest x
          (fun e he => by
            rcases List.mem_cons.mp he with he | he
            · subst he; simp
            · exact hds e (List.mem_cons_of_mem d he)) hrest
        simp only [amountOfId] at hih
        by_cases hx : d.id = x
        · simp only [hx, if_pos rfl] at hih ⊢
          push_cast at hih ⊢
          linarith
        · simp only [if_neg hx] at hih ⊢
          push_cast at hih ⊢
          linarith
      · -- impossible: one of the remainders is zero
        exfalso
        rcases min_choice d.amount c.amount with hm | hm
        · rw [hm] at hd; simp at hd
        · rw [hm] at hc; simp at hc

/-- Per-receiver accounting of the sweep: the recorded amounts received
by `x` never exceed `x`'s total in the creditor list plus a half-cent
of rounding slack per settlement. -/
theorem sweepFuel_sumTo_le :
    ∀ (n : Nat) (ds cs : List IdAmount) (l : List Settlement) (x : String),
      (∀ e ∈ cs, 0 ≤ e.amount) → sweepFuel n ds cs = some l →
      sumToId x l ≤ amountOfId x cs + (countToId x l : ℚ) / 200 := by
  intro n
  induction n with
  | zero => intro ds cs l x _ h; simp [sweepFuel] at h
  | succ n ih =>
    intro ds cs l x hcs h
    match ds, cs with
    | [], _ =>
      simp [sweepFuel] at h
      subst h
      simp only [sumToId, countToId]
      simpa using amountOfId_nonneg hcs
    | _ :: _, [] =>
      simp [sweepFuel] at h
      subst h
      simp [sumToId, countToId, amountOfId]
    | d :: ds, c :: cs =>
      simp only [sweepFuel, Option.map_eq_some'] at h
      obtain ⟨rest, hrest, hl⟩ := h
      subst hl
      have hcnn : 0 ≤ c.amount := hcs c (List.mem_cons_self c cs)
      have hmin_c : min d.amount c.amount ≤ c.amount := min_le_right _ _
      have hr2 := round2_le (min d.amount c.amount)
      simp only [sumToId, countToId, amountOfId]
      split_ifs at hrest with hd hc hc
      · -- both advance
        have hih := ih ds cs rest x
          (fun e he => hcs e (List.mem_cons_of_mem c he)) hrest
        by_cases hx : c.id = x
        · simp only [hx, if_pos rfl]
          push_cast
          linarith
        · simp only [if_neg hx]
          push_cast
          linarith
      · -- debtor advances, creditor kept
        have hih := ih ds (⟨c.id, c.amount - min d.amount c.amount⟩ :: cs) rest x
          (fun e he => by
            rcases List.mem_cons.mp he with he | he
            · subst he; simp
            · exact hcs e (List.mem_cons_of_mem c he)) hrest
        simp only [amountOfId] at hih
        by_cases hx : c.id = x
        · simp only [hx, if_pos rfl] at hih ⊢
          push_cast at hih ⊢
          linarith
        · simp only [if_neg hx] at hih ⊢
          push_cast at hih ⊢
          linarith
      · -- debtor kept, creditor advances
        have hih := ih (⟨d.id, d.amount - min d.amount c.amount⟩ :: ds) cs rest x
          (fun e he => hcs e (List.mem_cons_of_mem c he)) hrest
        by_cases hx : c.id = x
        · simp only [hx, if_pos rfl]
          push_cast
          linarith
        · simp only [if_neg hx]
          push_cast
          linarith
      · exfalso
        rcases min_choice d.amount c.amount with hm | hm
        · rw [hm] at hd; simp at hd
        · rw [hm] at hc; simp at hc

theorem amountOfId_perm {x : String} {l1 l2 : List IdAmount}
    (h : List.Perm l1 l2) : amountOfId x l1 = amountOfId x l2 := by
  induction h with
  | nil => rfl
  | cons a _ ih => simp [amountOfId, ih]
  | swap a b l => simp only [amountOfId]; ring
  | trans _ _ ih1 ih2 => exact ih1.trans ih2

theorem amountOfId_filterMap_zero
    (f : PlayerSessionInput → Option IdAmount)
    (hf : ∀ q a, f q = some a → a.id = q.playerId)
    (l : List PlayerSessionInput) (x : String)
    (h : ∀ q ∈ l, q.playerId ≠ x) :
    amountOfId x (l.filterMap f) = 0 := by
  induction l with
  | nil => rfl
  | cons q l ih =>
    have hql := ih fun r hr => h r (List.mem_cons_of_mem q hr)
    rw [List.filterMap_cons]
    cases hq : f q with
    | none => exact hql
    | some a =>
      have ha : a.id ≠ x := by
        rw [hf q a hq]
        exact h q (List.mem_cons_self q l)
      simp [amountOfId, ha, hql]

theorem amountOfId_filterMap_single
    (f : PlayerSessionInput → Option IdAmount)
    (hf : ∀ q a, f q = some a → a.id = q.playerId)
    (l : List PlayerSessionInput)
    (hnd : (l.map PlayerSessionInput.playerId).Nodup)
    (p : PlayerSessionInput) (hp : p ∈ l) :
    amountOfId p.playerId (l.filterMap f) =
      ((f p).map IdAmount.amount).getD 0 := by
  induction l with
  | nil => cases hp
  | cons q l ih =>
    rw [List.map_cons, List.nodup_cons] at hnd
    rw [List.filterMap_cons]
    rcases List.mem_cons.mp hp with rfl | hp'
    · have hnotin : ∀ r ∈ l, r.playerId ≠ p.playerId := by
        intro r hr heq
        exact hnd.1 (heq ▸ List.mem_map_of_mem PlayerSessionInput.playerId hr)
      cases hq : f p with
      | none => rw [amountOfId_filterMap_zero f hf l _ hnotin]; simp
      | some a =>
        have ha := hf p a hq
        simp [amountOfId, ha, amountOfId_filterMap_zero f hf l _ hnotin]
    · have hqx : q.playerId ≠ p.playerId := by
        intro heq
        exact hnd.1 (heq ▸ List.mem_map_of_mem PlayerSessionInput.playerId hp')
      have ihx := ih hnd.2 hp'
      cases hq : f q with
      | none => exact ihx
      | some a =>
        have ha := hf q a hq
        simp [amountOfId, ha, hqx, ihx]

theorem amountOfId_debtorsOf {inputs : List PlayerSessionInput}
    (hnd : (inputs.map PlayerSessionInput.playerId).Nodup)
    {p : PlayerSessionInput} (hp : p ∈ inputs)
    (hc : p.cashOut - p.buyIn < -(1 / 100)) :
    amountOfId p.playerId (debtorsOf inputs) = |p.cashOut - p.buyIn| := by
  unfold debtorsOf
  rw [amountOfId_perm (sortDesc_perm _),
    amountOfId_filterMap_single _ ?_ inputs hnd p hp]
  · rw [if_pos hc]
    rfl
  · intro q a hqa
    by_cases h : q.cashOut - q.buyIn < -(1 / 100)
    · rw [if_pos h] at hqa
      cases hqa
      rfl
    · rw [if_neg h] at hqa
      cases hqa

theorem amountOfId_creditorsOf {inputs : List PlayerSessionInput}
    (hnd : (inputs.map PlayerSessionInput.playerId).Nodup)
    {p : PlayerSessionInput} (hp : p ∈ inputs)
    (hc : p.cashOut - p.buyIn > 1 / 100) :
    amountOfId p.playerId (creditorsOf inputs) = p.cashOut - p.buyIn := by
  have hnl : ¬ p.cashOut - p.buyIn < -(1 / 100) := by linarith
  unfold creditorsOf
  rw [amountOfId_perm (sortDesc_perm _),
    amountOfId_filterMap_single _ ?_ inputs hnd p hp]
  · rw [if_neg hnl, if_pos hc]
    rfl
  · intro q a hqa
    by_cases h1 : q.cashOut - q.buyIn < -(1 / 100)
    · rw [if_pos h1] at hqa
      cases hqa
    · rw [if_neg h1] at hqa
      by_cases h2 : q.cashOut - q.buyIn > 1 / 100
      · rw [if_pos h2] at hqa
        cases hqa
        rfl
      · rw [if_neg h2] at hqa
        cases hqa

theorem debtorsOf_nonneg (inputs : List PlayerSessionInput) :
    ∀ e ∈ debtorsOf inputs, 0 ≤ e.amount := by
  intro e he
  unfold debtorsOf at he
  rw [(sortDesc_perm _).mem_iff] at he
  obtain ⟨p, _, hpe⟩ := List.mem_filterMap.mp he
  by_cases h : p.cashOut - p.buyIn < -(1 / 100)
  · rw [if_pos h] at hpe
    cases hpe
    exact abs_nonneg _
  · rw [if_neg h] at hpe
    cases hpe

theorem creditorsOf_nonneg (inputs : List PlayerSessionInput) :
    ∀ e ∈ creditorsOf inputs, 0 ≤ e.amount := by
  intro e he
  unfold creditorsOf at he
  rw [(sortDesc_perm _).mem_iff] at he
  obtain ⟨p, _, hpe⟩ := List.mem_filterMap.mp he
  by_cases h1 : p.cashOut - p.buyIn < -(1 / 100)
  · rw [if_pos h1] at hpe
    cases hpe
  · rw [if_neg h1] at hpe
    by_cases h2 : p.cashOut - p.buyIn > 1 / 100
    · rw [if_pos h2] at hpe
      cases hpe
      simp
      linarith
    · rw [if_neg h2] at hpe
      cases hpe

/-- C1 (amended): for a balanced input with unique player ids the call
succeeds, and each debtor's settlements sum to **at most** its debt
magnitude plus a half-cent of rounding slack per settlement emitted for
it; symmetrically each creditor receives at most its credit plus the
same slack. The two-sided version of the claim — that each such sum
*equals* the debt/credit within a fixed `0.02` tolerance — is false on
the code (see the counterexample). -/
theorem conservation_upper_bound (inputs : List PlayerSessionInput)
    (hnd : (inputs.map PlayerSessionInput.playerId).Nodup)
    (hbal : |totalBuyIn inputs - totalCashOut inputs| ≤ 1 / 100) :
    (calculateSettlements inputs).error = none ∧
    ∀ p ∈ inputs,
      (p.cashOut - p.buyIn < -(1 / 100) →
        sumFromId p.playerId (calculateSettlements inputs).settlements ≤
          |p.cashOut - p.buyIn| +
            (countFromId p.playerId
              (calculateSettlements inputs).settlements : ℚ) / 200) ∧
      (p.cashOut - p.buyIn > 1 / 100 →
        sumToId p.playerId (calculateSettlements inputs).settlements ≤
          (p.cashOut - p.buyIn) +
            (countToId p.playerId
              (calculateSettlements inputs).settlements : ℚ) / 200) := by
  have hb : ¬ |totalBuyIn inputs - totalCashOut inputs| > 1 / 100 :=
    not_lt.mpr hbal
  obtain ⟨l, hl⟩ := Option.isSome_iff_exists.mp
    (sweepFuel_isSome ((debtorsOf inputs).length + (creditorsOf inputs).length + 1)
      (debtorsOf inputs) (creditorsOf inputs) (by omega))
  have hset : (calculateSettlements inputs).settlements = l := by
    simp only [calculateSettlements, if_neg hb, hl, Option.getD_some]
  have herr : (calculateSettlements inputs).error = none := by
    simp only [calculateSettlements, if_neg hb]
  refine ⟨herr, fun p hp => ⟨fun hc => ?_, fun hc => ?_⟩⟩
  · have h1 := sweepFuel_sumFrom_le _ _ _ l p.playerId
      (debtorsOf_nonneg inputs) hl
    rw [amountOfId_debtorsOf hnd hp hc] at h1
    rw [hset]
    exact h1
  · have h1 := sweepFuel_sumTo_le _ _ _ l p.playerId
      (creditorsOf_nonneg inputs) hl
    rw [amountOfId_creditorsOf hnd hp hc] at h1
    rw [hset]
    exact h1

/-- Witness for the amended C1 at a two-player input: the call succeeds
and the debtor's paid total respects the bound. -/
theorem conservation_upper_bound_witness :
    (calculateSettlements [⟨"P", 1, 0⟩, ⟨"Q", 0, 1⟩]).error = none ∧
    sumFromId "P" (calculateSettlements [⟨"P", 1, 0⟩, ⟨"Q", 0, 1⟩]).settlements ≤
      |(0 : ℚ) - 1| +
        (countFromId "P"
          (calculateSettlements [⟨"P", 1, 0⟩, ⟨"Q", 0, 1⟩]).settlements : ℚ) / 200 := by
  have h := conservation_upper_bound [⟨"P", 1, 0⟩, ⟨"Q", 0, 1⟩]
    (by simp) (by norm_num [totalBuyIn, totalCashOut, List.foldl])
  refine ⟨h.1, ?_⟩
  have h2 := (h.2 ⟨"P", 1, 0⟩ (List.mem_cons_self _ _)).1 (by norm_num)
  simpa using h2

/-- Counterexample to C1 as stated: on `epsilonAbsorbInputs` every
hypothesis of the claim holds (finite non-negative amounts, unique ids,
balanced totals), "D" is a debtor with debt `0.05`, yet the settlements
paid by "D" sum to `0.02`, which misses the debt by `0.03 > 0.02`. -/
theorem conservation_counterexample :
    (epsilonAbsorbInputs.map PlayerSessionInput.playerId).Nodup ∧
    |totalBuyIn epsilonAbsorbInputs - totalCashOut epsilonAbsorbInputs| ≤ 1 / 100 ∧
    (⟨"D", 5 / 100, 0⟩ : PlayerSessionInput) ∈ epsilonAbsorbInputs ∧
    ((0 : ℚ) - 5 / 100 < -(1 / 100)) ∧
    sumFromId "D" (calculateSettlements epsilonAbsorbInputs).settlements = 2 / 100 ∧
    |(0 : ℚ) - 5 / 100| = 5 / 100 ∧
    ¬ (|(2 : ℚ) / 100 - 5 / 100| ≤ 2 / 100) := by
  refine ⟨by simp [epsilonAbsorbInputs],
    by norm_num [epsilonAbsorbInputs, totalBuyIn, totalCashOut, List.foldl],
    by simp [epsilonAbsorbInputs], by norm_num, ?_, by norm_num,
    by rw [show (2 : ℚ) / 100 - 5 / 100 = -(3 / 100) by norm_num, abs_neg,
        abs_of_nonneg (by norm_num : (0 : ℚ) ≤ 3 / 100)]
       norm_num⟩
  norm_num [epsilonAbsorbInputs, calculateSettlements, totalBuyIn, totalCashOut,
    List.foldl, debtorsOf, creditorsOf, sortDesc, insDesc, List.filterMap,
    sweepFuel, round2, sumFromId, abs_of_nonneg, min_def]

/-! ### Association-list lemmas -/

theorem alistGet_eq_none_iff {α : Type} (m : List (String × α)) (k : String) :
    alistGet m k = none ↔ k ∉ m.map Prod.fst := by
  induction m with
  | nil => simp [alistGet]
  | cons e m ih =>
    obtain ⟨k', v⟩ := e
    by_cases h : k' = k
    · subst h
      simp [alistGet]
    · simp [alistGet, h, ih, Ne.symm h]

theorem alistGet_mem {α : Type} {m : List (String × α)} {k : String} {v : α}
    (h : alistGet m k = some v) : (k, v) ∈ m := by
  induction m with
  | nil => simp [alistGet] at h
  | cons e m ih =>
    obtain ⟨k', v'⟩ := e
    by_cases hk : k' = k
    · subst hk
      simp [alistGet] at h
      simp [h]
    · simp only [alistGet, if_neg hk] at h
      exact List.mem_cons_of_mem _ (ih h)

theorem alistSet_map_fst {α : Type} (m : List (String × α)) (k : String) (v : α) :
    (alistSet m k v).map Prod.fst = m.map Prod.fst := by
  induction m with
  | nil => rfl
  | cons e m ih =>
    obtain ⟨k', v'⟩ := e
    by_cases h : k' = k <;> simp [alistSet, h, ih]

theorem alistGet_set_self {α : Type} {m : List (String × α)} {k : String}
    (h : (alistGet m k).isSome) (v : α) :
    alistGet (alistSet m k v) k = some v := by
  induction m with
  | nil => simp [alistGet] at h
  | cons e m ih =>
    obtain ⟨k', v'⟩ := e
    by_cases hk : k' = k
    · subst hk
      simp [alistSet, alistGet]
    · simp only [alistGet, if_neg hk] at h
      simp only [alistSet, if_neg hk, alistGet, if_neg hk]
      exact ih h

theorem alistGet_set_ne {α : Type} (m : List (String × α)) {k k' : String}
    (h : k ≠ k') (v : α) : alistGet (alistSet m k v) k' = alistGet m k' := by
  induction m with
  | nil => rfl
  | cons e m ih =>
    obtain ⟨k0, v0⟩ := e
    by_cases hk : k0 = k
    · subst hk
      simp [alistSet, alistGet, h]
    · simp only [alistSet, if_neg hk, alistGet]
      split_ifs <;> simp [ih]

theorem alistGet_append_right {α : Type} {m : List (String × α)} {k : String}
    (h : alistGet m k = none) (l : List (String × α)) :
    alistGet (m ++ l) k = alistGet l k := by
  induction m with
  | nil => rfl
  | cons e m ih =>
    obtain ⟨k', v'⟩ := e
    by_cases hk : k' = k
    · subst hk
      simp [alistGet] at h
    · simp only [alistGet, if_neg hk] at h
      simp only [List.cons_append, alistGet, if_neg hk]
      exact ih h

theorem alistGet_append_left {α : Type} {m : List (String × α)} {k : String}
    {v : α} (h : alistGet m k = some v) (l : List (String × α)) :
    alistGet (m ++ l) k = some v := by
  induction m with
  | nil => simp [alistGet] at h
  | cons e m ih =>
    obtain ⟨k', v'⟩ := e
    by_cases hk : k' = k
    · subst hk
      simp only [alistGet, if_pos rfl] at h ⊢
      exact h
    · simp only [alistGet, if_neg hk] at h ⊢
      exact ih h

theorem alistGet_upsert_self {α : Type} (m : List (String × α)) (k : String)
    (v : α) : alistGet (alistUpsert m k v) k = some v := by
  unfold alistUpsert
  by_cases h : (alistGet m k).isSome
  · rw [if_pos h]
    exact alistGet_set_self h v
  · rw [if_neg h]
    rw [Option.not_isSome_iff_eq_none] at h
    rw [alistGet_append_right h]
    simp [alistGet]

theorem alistGet_upsert_ne {α : Type} (m : List (String × α)) {k k' : String}
    (h : k ≠ k') (v : α) :
    alistGet (alistUpsert m k v) k' = alistGet m k' := by
  unfold alistUpsert
  split_ifs with hs
  · exact alistGet_set_ne m h v
  · cases hg : alistGet m k' with
    | none =>
      rw [alistGet_append_right hg]
      simp [alistGet, h]
    | some w => exact alistGet_append_left hg _

/-! ### Frame properties of the stat recomputation -/

theorem map_reset_alistSet (m : List (String × Player)) (k : String)
    {p : Player} (v : Player) (hv : resetStats v = resetStats p)
    (hget : alistGet m k = some p) :
    (alistSet m k v).map (fun e => (e.1, resetStats e.2)) =
      m.map (fun e => (e.1, resetStats e.2)) := by
  induction m with
  | nil => rfl
  | cons e m ih =>
    obtain ⟨k', v'⟩ := e
    by_cases hk : k' = k
    · subst hk
      simp [alistGet] at hget
      subst hget
      simp [alistSet, hv]
    · simp only [alistGet, if_neg hk] at hget
      simp [alistSet, hk, ih hget]

theorem applyRecord_reset (m : List (String × Player)) (r : PlayerSessionInput) :
    (applyRecord m r).map (fun e => (e.1, resetStats e.2)) =
      m.map (fun e => (e.1, resetStats e.2)) := by
  unfold applyRecord
  cases hget : alistGet m r.playerId with
  | none => rfl
  | some p => exact map_reset_alistSet m _ (p := p) _ rfl hget

theorem applySession_reset (s : GameSession) :
    ∀ m, (applySession m s).map (fun e => (e.1, resetStats e.2)) =
      m.map (fun e => (e.1, resetStats e.2)) := by
  unfold applySession
  induction s.players with
  | nil => intro m; rfl
  | cons r rs ih =>
    intro m
    rw [List.foldl_cons, ih (applyRecord m r), applyRecord_reset]

theorem foldSessions_reset (sessions : List GameSession) :
    ∀ m, (sessions.foldl applySession m).map (fun e => (e.1, resetStats e.2)) =
      m.map (fun e => (e.1, resetStats e.2)) := by
  induction sessions with
  | nil => intro m; rfl
  | cons s ss ih =>
    intro m
    rw [List.foldl_cons, ih (applySession m s), applySession_reset]

theorem mapFromPlayers_eq (ps : List Player)
    (hnd : (ps.map Player.id).Nodup) :
    mapFromPlayers ps = ps.map (fun p => (p.id, resetStats p)) := by
  suffices h : ∀ (ps : List Player) (m : List (String × Player)),
      (ps.map Player.id).Nodup → (∀ p ∈ ps, alistGet m p.id = none) →
      ps.foldl (fun m p => alistUpsert m p.id (resetStats p)) m =
        m ++ ps.map (fun p => (p.id, resetStats p)) by
    simpa using h ps [] hnd (fun p _ => rfl)
  intro ps
  induction ps with
  | nil => intro m _ _; simp
  | cons p ps ih =>
    intro m hnd hnone
    rw [List.map_cons, List.nodup_cons] at hnd
    have hget : alistGet m p.id = none := hnone p (List.mem_cons_self p ps)
    have step : alistUpsert m p.id (resetStats p) =
        m ++ [(p.id, resetStats p)] := by
      unfold alistUpsert
      simp [hget]
    rw [List.foldl_cons, step, ih (m ++ [(p.id, resetStats p)]) hnd.2 ?_]
    · simp
    · intro q hq
      have h1 : alistGet m q.id = none := hnone q (List.mem_cons_of_mem _ hq)
      rw [alistGet_append_right h1]
      have hne : p.id ≠ q.id := fun he =>
        hnd.1 (he ▸ List.mem_map_of_mem Player.id hq)
      simp [alistGet, hne]

/-- C9 (amended): when the input players have pairwise-distinct ids,
`recalculatePlayerStats` returns one player per input player, in order,
with the same id, name and avatar (only the stats are replaced). The
unrestricted claim fails on duplicate ids (see the counterexample): the
`Map` keyed by id collapses duplicates. -/
theorem recalculate_frame (ps : List Player) (ss : List GameSession)
    (hnd : (ps.map Player.id).Nodup) :
    (recalculatePlayerStats ps ss).map (fun q => (q.id, q.name, q.avatar)) =
      ps.map (fun p => (p.id, p.name, p.avatar)) := by
  unfold recalculatePlayerStats
  rw [List.map_map]
  have h1 : ((sortByDate ss).foldl applySession (mapFromPlayers ps)).map
        ((fun q => (q.id, q.name, q.avatar)) ∘ (fun e => e.2)) =
      (((sortByDate ss).foldl applySession (mapFromPlayers ps)).map
        (fun e => (e.1, resetStats e.2))).map
          (fun e => (e.2.id, e.2.name, e.2.avatar)) := by
    rw [List.map_map]
    rfl
  rw [h1, foldSessions_reset, mapFromPlayers_eq ps hnd, List.map_map,
    List.map_map]
  rfl

/-- Witness for the amended C9: a single-player roster keeps its id,
name and avatar through recomputation. -/
theorem recalculate_frame_witness :
    (recalculatePlayerStats [⟨"w1", "Walt", none, 7, 3⟩] []).map
        (fun q => (q.id, q.name, q.avatar)) =
      [("w1", "Walt", (none : Option String))] := by
  have h := recalculate_frame [⟨"w1", "Walt", none, 7, 3⟩] [] (by simp)
  simpa using h

/-- Counterexample to C9 as stated (for *every* players list): two
players sharing the id "a" collapse to a single output record, so the
output cardinality differs from the input's. -/
theorem frame_counterexample :
    (recalculatePlayerStats duplicateIdPlayers []).length = 1 ∧
    duplicateIdPlayers.length = 2 := by
  constructor
  · rfl
  · rfl

/-! ### Idempotence of the stat recomputation -/

theorem mem_alistSet {α : Type} {m : List (String × α)} {k : String} {v : α}
    {e : String × α} (he : e ∈ alistSet m k v) : e ∈ m ∨ e = (k, v) := by
  induction m with
  | nil => simp [alistSet] at he
  | cons e0 m ih =>
    obtain ⟨k0, v0⟩ := e0
    by_cases hk : k0 = k
    · subst hk
      simp only [alistSet, if_pos rfl] at he
      rcases List.mem_cons.mp he with rfl | he
      · right; rfl
      · left; exact List.mem_cons_of_mem _ he
    · simp only [alistSet, if_neg hk] at he
      rcases List.mem_cons.mp he with rfl | he
      · left; exact List.mem_cons_self _ _
      · rcases ih he with h | h
        · left; exact List.mem_cons_of_mem _ h
        · right; exact h

theorem wk_alistSet {m : List (String × Player)} {k : String} {v : Player}
    (hm : ∀ e ∈ m, Player.id e.2 = e.1) (hv : v.id = k) :
    ∀ e ∈ alistSet m k v, Player.id e.2 = e.1 := by
  intro e he
  rcases mem_alistSet he with h | h
  · exact hm e h
  · subst h; exact hv

theorem wk_applyRecord {m : List (String × Player)}
    (hm : ∀ e ∈ m, Player.id e.2 = e.1) (r : PlayerSessionInput) :
    ∀ e ∈ applyRecord m r, Player.id e.2 = e.1 := by
  unfold applyRecord
  cases hget : alistGet m r.playerId with
  | none => exact hm
  | some p =>
    exact wk_alistSet hm (hm (r.playerId, p) (alistGet_mem hget))

theorem wk_applySession {s : GameSession} :
    ∀ {m : List (String × Player)}, (∀ e ∈ m, Player.id e.2 = e.1) →
      ∀ e ∈ applySession m s, Player.id e.2 = e.1 := by
  unfold applySession
  induction s.players with
  | nil => intro m hm; exact hm
  | cons r rs ih =>
    intro m hm
    exact ih (wk_applyRecord hm r)

theorem wk_foldSessions (sessions : List GameSession) :
    ∀ {m : List (String × Player)}, (∀ e ∈ m, Player.id e.2 = e.1) →
      ∀ e ∈ sessions.foldl applySession m, Player.id e.2 = e.1 := by
  induction sessions with
  | nil => intro m hm; exact hm
  | cons s ss ih =>
    intro m hm
    exact ih (wk_applySession hm)

theorem wk_alistUpsert {m : List (String × Player)} {k : String} {v : Player}
    (hm : ∀ e ∈ m, Player.id e.2 = e.1) (hv : v.id = k) :
    ∀ e ∈ alistUpsert m k v, Player.id e.2 = e.1 := by
  unfold alistUpsert
  split_ifs
  · exact wk_alistSet hm hv
  · intro e he
    rcases List.mem_append.mp he with h | h
    · exact hm e h
    · simp at h
      subst h
      exact hv

theorem wk_mapFromPlayers (ps : List Player) :
    ∀ e ∈ mapFromPlayers ps, Player.id e.2 = e.1 := by
  suffices h : ∀ (ps : List Player) (m : List (String × Player)),
      (∀ e ∈ m, Player.id e.2 = e.1) →
      ∀ e ∈ ps.foldl (fun m p => alistUpsert m p.id (resetStats p)) m,
        Player.id e.2 = e.1 by
    exact h ps [] (by simp)
  intro ps
  induction ps with
  | nil => intro m hm; exact hm
  | cons p ps ih =>
    intro m hm
    exact ih _ (wk_alistUpsert hm rfl)

theorem nodupKeys_mapFromPlayers (ps : List Player) :
    ((mapFromPlayers ps).map Prod.fst).Nodup := by
  suffices h : ∀ (ps : List Player) (m : List (String × Player)),
      (m.map Prod.fst).Nodup →
      ((ps.foldl (fun m p => alistUpsert m p.id (resetStats p)) m).map
        Prod.fst).Nodup by
    exact h ps [] (by simp)
  intro ps
  induction ps with
  | nil => intro m hm; exact hm
  | cons p ps ih =>
    intro m hm
    apply ih
    simp only [alistUpsert]
    split_ifs with hs
    · rw [alistSet_map_fst]
      exact hm
    · rw [Option.not_isSome_iff_eq_none, alistGet_eq_none_iff] at hs
      simp [List.nodup_append, hm, hs]

theorem allReset_mapFromPlayers (ps : List Player) :
    ∀ e ∈ mapFromPlayers ps, resetStats e.2 = e.2 := by
  suffices h : ∀ (ps : List Player) (m : List (String × Player)),
      (∀ e ∈ m, resetStats e.2 = e.2) →
      ∀ e ∈ ps.foldl (fun m p => alistUpsert m p.id (resetStats p)) m,
        resetStats e.2 = e.2 by
    exact h ps [] (by simp)
  intro ps
  induction ps with
  | nil => intro m hm; exact hm
  | cons p ps ih =>
    intro m hm
    apply ih
    intro e he
    simp only [alistUpsert] at he
    split_ifs at he
    · rcases mem_alistSet he with h | h
      · exact hm e h
      · subst h; rfl
    · rcases List.mem_append.mp he with h | h
      · exact hm e h
      · simp at h
        subst h
        rfl

theorem map_reset_self {m : List (String × Player)}
    (h : ∀ e ∈ m, resetStats e.2 = e.2) :
    m.map (fun e => (e.1, resetStats e.2)) = m := by
  induction m with
  | nil => rfl
  | cons e m ih =>
    rw [List.map_cons, h e (List.mem_cons_self e m),
      ih fun e' he' => h e' (List.mem_cons_of_mem e he')]

/-- Recomputed players feed back into the same reset map: the prior
stats are wiped, so the map built from the output equals the map built
from the input. -/
theorem mapFromPlayers_recalc (ps : List Player) (ss : List GameSession) :
    mapFromPlayers (recalculatePlayerStats ps ss) = mapFromPlayers ps := by
  have hwkM : ∀ e ∈ (sortByDate ss).foldl applySession (mapFromPlayers ps),
      Player.id e.2 = e.1 :=
    wk_foldSessions (sortByDate ss) (wk_mapFromPlayers ps)
  have hreset := foldSessions_reset (sortByDate ss) (mapFromPlayers ps)
  have hvalues :
      (recalculatePlayerStats ps ss).map (fun q => (q.id, resetStats q)) =
        ((sortByDate ss).foldl applySession (mapFromPlayers ps)).map
          (fun e => (e.1, resetStats e.2)) := by
    unfold recalculatePlayerStats
    rw [List.map_map]
    apply List.map_congr_left
    intro e he
    have := hwkM e he
    simp only [Function.comp]
    rw [this]
  have hids : (recalculatePlayerStats ps ss).map Player.id =
      (mapFromPlayers ps).map Prod.fst := by
    have h1 := congrArg (List.map Prod.fst) (hvalues.trans hreset)
    rw [List.map_map, List.map_map] at h1
    simpa using h1
  have hnodup : ((recalculatePlayerStats ps ss).map Player.id).Nodup := by
    rw [hids]
    exact nodupKeys_mapFromPlayers ps
  rw [mapFromPlayers_eq _ hnodup, hvalues, hreset,
    map_reset_self (allReset_mapFromPlayers ps)]

/-- C3: `recalculatePlayerStats` is idempotent — feeding its output back
in as the players list (with the same sessions) returns the same result;
prior `totalWinnings`/`gamesPlayed` values have no influence. -/
theorem recalculate_idempotent (ps : List Player) (ss : List GameSession) :
    recalculatePlayerStats (recalculatePlayerStats ps ss) ss =
      recalculatePlayerStats ps ss := by
  conv_lhs =>
    rw [show recalculatePlayerStats (recalculatePlayerStats ps ss) ss =
      ((sortByDate ss).foldl applySession
        (mapFromPlayers (recalculatePlayerStats ps ss))).map (fun e => e.2)
      from rfl]
  rw [mapFromPlayers_recalc]
  rfl

/-! ### Unknown-reference tolerance -/

theorem containsId_iff (ids : List String) (x : String) :
    ids.contains x = true ↔ x ∈ ids := by
  simp

theorem keysOf_applyRecord (m : List (String × Player))
    (r : PlayerSessionInput) :
    (applyRecord m r).map Prod.fst = m.map Prod.fst := by
  unfold applyRecord
  cases alistGet m r.playerId with
  | none => rfl
  | some p => exact alistSet_map_fst m _ _

theorem keysOf_applySession (s : GameSession) :
    ∀ m, (applySession m s).map Prod.fst = m.map Prod.fst := by
  unfold applySession
  induction s.players with
  | nil => intro m; rfl
  | cons r rs ih =>
    intro m
    rw [List.foldl_cons, ih, keysOf_applyRecord]

theorem keys_mapFromPlayers_sub (ps : List Player) :
    ∀ k ∈ (mapFromPlayers ps).map Prod.fst, k ∈ ps.map Player.id := by
  suffices h : ∀ (ps : List Player) (m : List (String × Player)) (k : String),
      k ∈ (ps.foldl (fun m p => alistUpsert m p.id (resetStats p)) m).map
        Prod.fst →
      k ∈ m.map Prod.fst ∨ k ∈ ps.map Player.id by
    intro k hk
    rcases h ps [] k hk with h | h
    · simp at h
    · exact h
  intro ps
  induction ps with
  | nil =>
    intro m k hk
    exact Or.inl hk
  | cons p ps ih =>
    intro m k hk
    rcases ih _ k hk with h | h
    · simp only [alistUpsert] at h
      split_ifs at h
      · rw [alistSet_map_fst] at h
        exact Or.inl h
      · simp only [List.map_append] at h
        rcases List.mem_append.mp h with h | h
        · exact Or.inl h
        · simp at h
          subst h
          simp
    · right
      simp [h]

theorem insByDate_restrict (g : PlayerSessionInput → Bool) (s : GameSession) :
    ∀ l, insByDate { s with players := s.players.filter g }
        (l.map fun t => { t with players := t.players.filter g }) =
      (insByDate s l).map fun t => { t with players := t.players.filter g } := by
  intro l
  induction l with
  | nil => rfl
  | cons t l ih =>
    simp only [List.map_cons, insByDate]
    by_cases h : s.date < t.date
    · simp only [if_pos h, List.map_cons]
    · simp only [if_neg h, List.map_cons, ih]

theorem sortByDate_restrict (g : PlayerSessionInput → Bool)
    (ss : List GameSession) :
    sortByDate (ss.map fun t => { t with players := t.players.filter g }) =
      (sortByDate ss).map fun t => { t with players := t.players.filter g } := by
  suffices h : ∀ (ss acc : List GameSession),
      (ss.map fun t => { t with players := t.players.filter g }).foldl
          (fun a s => insByDate s a)
          (acc.map fun t => { t with players := t.players.filter g }) =
        (ss.foldl (fun a s => insByDate s a) acc).map
          fun t => { t with players := t.players.filter g } by
    simpa using h ss []
  intro ss
  induction ss with
  | nil => intro acc; rfl
  | cons s ss ih =>
    intro acc
    rw [List.map_cons, List.foldl_cons, List.foldl_cons,
      insByDate_restrict g s acc, ih (insByDate s acc)]

theorem foldRecords_filter (ps : List Player) :
    ∀ (rs : List PlayerSessionInput) (m : List (String × Player)),
      (∀ k ∈ m.map Prod.fst, k ∈ ps.map Player.id) →
      (rs.filter fun r => (ps.map Player.id).contains r.playerId).foldl
          applyRecord m =
        rs.foldl applyRecord m := by
  intro rs
  induction rs with
  | nil => intro m _; rfl
  | cons r rs ih =>
    intro m hm
    by_cases hg : (ps.map Player.id).contains r.playerId = true
    · simp only [List.filter_cons, hg, if_true, List.foldl_cons]
      apply ih
      intro k hk
      rw [keysOf_applyRecord] at hk
      exact hm k hk
    · have hr : applyRecord m r = m := by
        have h1 : r.playerId ∉ ps.map Player.id := fun hmem =>
          hg ((containsId_iff _ _).mpr hmem)
        have h2 : r.playerId ∉ m.map Prod.fst := fun hmem => h1 (hm _ hmem)
        unfold applyRecord
        rw [(alistGet_eq_none_iff m r.playerId).mpr h2]
      have hg' : (ps.map Player.id).contains r.playerId = false := by
        simpa using hg
      simp only [List.filter_cons, hg', Bool.false_eq_true, if_false,
        List.foldl_cons, hr, ih m hm]

theorem foldSessions_filter (ps : List Player) :
    ∀ (sorted : List GameSession) (m : List (String × Player)),
      (∀ k ∈ m.map Prod.fst, k ∈ ps.map Player.id) →
      (sorted.map fun t =>
          { t with players := t.players.filter fun r =>
              (ps.map Player.id).contains r.playerId }).foldl applySession m =
        sorted.foldl applySession m := by
  intro sorted
  induction sorted with
  | nil => intro m _; rfl
  | cons s ss ih =>
    intro m hm
    rw [List.map_cons, List.foldl_cons, List.foldl_cons]
    have hs : applySession m
        { s with players := s.players.filter fun r =>
            (ps.map Player.id).contains r.playerId } = applySession m s :=
      foldRecords_filter ps s.players m hm
    rw [hs]
    apply ih
    intro k hk
    rw [keysOf_applySession] at hk
    exact hm k hk

/-- C8: session records whose `playerId` is unknown to the players list
are silently skipped — recomputing over the full history equals
recomputing over the history with all unknown-id records removed, and
no error is possible (the function is total). -/
theorem recalculate_skips_unknown (ps : List Player) (ss : List GameSession) :
    recalculatePlayerStats ps ss =
      recalculatePlayerStats ps (dropUnknownRecords ps ss) := by
  unfold recalculatePlayerStats dropUnknownRecords
  rw [sortByDate_restrict, foldSessions_filter ps (sortByDate ss)
    (mapFromPlayers ps) (keys_mapFromPlayers_sub ps)]

/-! ### Chart and recomputation consistency -/

theorem alistGet_isSome_iff {α : Type} (m : List (String × α)) (k : String) :
    (alistGet m k).isSome = true ↔ k ∈ m.map Prod.fst := by
  constructor
  · intro h
    by_contra hk
    rw [← alistGet_eq_none_iff] at hk
    rw [hk] at h
    cases h
  · intro h
    cases hg : alistGet m k with
    | none => exact absurd h ((alistGet_eq_none_iff m k).mp hg)
    | some v => rfl

theorem initScores_get_mem (ps : List Player) (k : String)
    (hk : k ∈ ps.map Player.id) :
    alistGet (initScores ps) k = some (some 0) := by
  suffices h : ∀ (ps : List Player) (m : ScoreMap) (k : String),
      (alistGet m k = some (some 0) ∨ k ∈ ps.map Player.id) →
      alistGet (ps.foldl (fun m p => alistUpsert m p.id (some 0)) m) k =
        some (some 0) by
    exact h ps [] k (Or.inr hk)
  intro ps
  induction ps with
  | nil =>
    intro m k hk
    rcases hk with h | h
    · exact h
    · simp at h
  | cons p ps ih =>
    intro m k hk
    by_cases hkp : p.id = k
    · subst hkp
      apply ih
      left
      exact alistGet_upsert_self m p.id (some 0)
    · apply ih
      rcases hk with h | h
      · left
        rw [alistGet_upsert_ne m hkp]
        exact h
      · rcases (by simpa using h : k = p.id ∨ ∃ a ∈ ps, a.id = k) with h1 | h1
        · exact absurd h1.symm hkp
        · right
          simpa using h1

theorem initScores_get_not_mem (ps : List Player) (k : String)
    (hk : k ∉ ps.map Player.id) :
    alistGet (initScores ps) k = none := by
  suffices h : ∀ (ps : List Player) (m : ScoreMap) (k : String),
      alistGet m k = none → k ∉ ps.map Player.id →
      alistGet (ps.foldl (fun m p => alistUpsert m p.id (some 0)) m) k =
        none by
    exact h ps [] k rfl hk
  intro ps
  induction ps with
  | nil => intro m k hm _; exact hm
  | cons p ps ih =>
    intro m k hm hk
    simp only [List.map_cons, List.mem_cons, not_or] at hk
    apply ih _ _ ?_ hk.2
    rw [alistGet_upsert_ne m (fun h => hk.1 h.symm)]
    exact hm

theorem mapFromPlayers_get_tw_zero {ps : List Player} {k : String} {v : Player}
    (h : alistGet (mapFromPlayers ps) k = some v) : v.totalWinnings = 0 := by
  have hm := alistGet_mem h
  have hr := allReset_mapFromPlayers ps (k, v) hm
  have : v.totalWinnings = (resetStats v).totalWinnings := by rw [hr]
  simpa [resetStats] using this

theorem mapFromPlayers_get_isSome (ps : List Player) (k : String)
    (hk : k ∈ ps.map Player.id) :
    (alistGet (mapFromPlayers ps) k).isSome = true := by
  suffices h : ∀ (ps : List Player) (m : List (String × Player)) (k : String),
      ((alistGet m k).isSome = true ∨ k ∈ ps.map Player.id) →
      (alistGet
        (ps.foldl (fun m p => alistUpsert m p.id (resetStats p)) m) k).isSome =
        true by
    exact h ps [] k (Or.inr hk)
  intro ps
  induction ps with
  | nil =>
    intro m k hk
    rcases hk with h | h
    · exact h
    · simp at h
  | cons p ps ih =>
    intro m k hk
    by_cases hkp : p.id = k
    · subst hkp
      apply ih
      left
      rw [alistGet_upsert_self m p.id]
      rfl
    · apply ih
      rcases hk with h | h
      · left
        rw [alistGet_upsert_ne m hkp]
        exact h
      · rcases (by simpa using h : k = p.id ∨ ∃ a ∈ ps, a.id = k) with h1 | h1
        · exact absurd h1.symm hkp
        · right
          simpa using h1

/-- The pointwise relation between the stat map and the chart score
map: every player present in the stat map has a numeric chart score
equal to its accumulated `totalWinnings`. -/
def StatScoreRel (M : List (String × Player)) (SC : ScoreMap) : Prop :=
  ∀ k v, alistGet M k = some v → alistGet SC k = some (some v.totalWinnings)

theorem statScoreRel_record {M : List (String × Player)} {SC : ScoreMap}
    (h : StatScoreRel M SC) (r : PlayerSessionInput) :
    StatScoreRel (applyRecord M r)
      (updateScore SC r.playerId (r.cashOut - r.buyIn)) := by
  intro k v hv
  by_cases hk : k = r.playerId
  · subst hk
    unfold applyRecord at hv
    cases hM : alistGet M r.playerId with
    | none =>
      rw [hM] at hv
      rw [hv] at hM
      cases hM
    | some p =>
      rw [hM] at hv
      rw [alistGet_set_self (by rw [hM]; rfl)] at hv
      cases hv
      have hsc := h r.playerId p hM
      unfold updateScore
      rw [hsc, alistGet_set_self (by rw [hsc]; rfl)]
      rfl
  · have hMk : alistGet M k = some v := by
      unfold applyRecord at hv
      cases hM : alistGet M r.playerId with
      | none => rw [hM] at hv; exact hv
      | some p =>
        rw [hM] at hv
        rw [alistGet_set_ne M (fun he => hk he.symm)] at hv
        exact hv
    have hsc := h k v hMk
    unfold updateScore
    cases hS : alistGet SC r.playerId with
    | none => exact alistGet_append_left hsc _
    | some o =>
      rw [alistGet_set_ne SC (fun he => hk he.symm)]
      exact hsc

theorem statScoreRel_session {M : List (String × Player)} {SC : ScoreMap}
    (h : StatScoreRel M SC) (s : GameSession) :
    StatScoreRel (applySession M s) (applySessionScores SC s) := by
  unfold applySession applySessionScores
  induction s.players generalizing M SC with
  | nil => exact h
  | cons r rs ih => exact ih (statScoreRel_record h r)

theorem statScoreRel_fold {M : List (String × Player)} {SC : ScoreMap}
    (h : StatScoreRel M SC) (l : List GameSession) :
    StatScoreRel (l.foldl applySession M) (l.foldl applySessionScores SC) := by
  induction l generalizing M SC with
  | nil => exact h
  | cons s ss ih => exact ih (statScoreRel_session h s)

theorem chartSteps_getLastD :
    ∀ (l : List GameSession) (cur : ScoreMap) (idx : Nat) (pt : ChartPoint),
      pt.scores = cur →
      ((chartSteps cur l idx).getLastD pt).scores =
        l.foldl applySessionScores cur := by
  intro l
  induction l with
  | nil =>
    intro cur idx pt hpt
    simpa using hpt
  | cons s rest ih =>
    intro cur idx pt hpt
    rw [List.foldl_cons]
    simp only [chartSteps]
    rw [List.getLastD_cons]
    exact ih (applySessionScores cur s) (idx + 1) _ rfl

theorem keysOf_foldSessions (l : List GameSession) :
    ∀ m, (l.foldl applySession m).map Prod.fst = m.map Prod.fst := by
  induction l with
  | nil => intro m; rfl
  | cons s ss ih =>
    intro m
    rw [List.foldl_cons, ih, keysOf_applySession]

theorem find_values {M : List (String × Player)} {k : String} {v : Player}
    (hwk : ∀ e ∈ M, Player.id e.2 = e.1) (hget : alistGet M k = some v) :
    (M.map (fun e => e.2)).find? (fun q => q.id == k) = some v := by
  induction M with
  | nil => cases hget
  | cons e M ih =>
    obtain ⟨k0, v0⟩ := e
    have hv0 : v0.id = k0 := hwk (k0, v0) (List.mem_cons_self _ _)
    by_cases hk : k0 = k
    · subst hk
      simp only [alistGet, if_pos rfl] at hget
      cases hget
      simp [List.find?, hv0]
    · simp only [alistGet, if_neg hk] at hget
      have hbeq : (v0.id == k) = false := by
        rw [hv0]
        exact beq_eq_false_iff_ne.mpr hk
      simp only [List.map_cons, List.find?, hbeq]
      exact ih (fun e he => hwk e (List.mem_cons_of_mem _ he)) hget

/-- C4: for every player of the roster, the scores entry for its id in
the final element of `generateChartData` equals the `totalWinnings`
that `recalculatePlayerStats` computes for it, on any session history. -/
theorem chart_recalc_consistency (ps : List Player) (ss : List GameSession)
    (p : Player) (hp : p ∈ ps) :
    ∃ q, (recalculatePlayerStats ps ss).find? (fun q => q.id == p.id) = some q ∧
      alistGet (lastChartPoint ps ss).scores p.id =
        some (some q.totalWinnings) := by
  have hpid : p.id ∈ ps.map Player.id := List.mem_map_of_mem Player.id hp
  have hkeys := keysOf_foldSessions (sortByDate ss) (mapFromPlayers ps)
  have hsome : (alistGet ((sortByDate ss).foldl applySession
      (mapFromPlayers ps)) p.id).isSome = true := by
    rw [alistGet_isSome_iff, hkeys, ← alistGet_isSome_iff]
    exact mapFromPlayers_get_isSome ps p.id hpid
  obtain ⟨q, hq⟩ := Option.isSome_iff_exists.mp hsome
  have hrel0 : StatScoreRel (mapFromPlayers ps) (initScores ps) := by
    intro k v hv
    have hkmem : k ∈ (mapFromPlayers ps).map Prod.fst := by
      rw [← alistGet_isSome_iff, hv]
      rfl
    have hkid := keys_mapFromPlayers_sub ps k hkmem
    rw [initScores_get_mem ps k hkid, mapFromPlayers_get_tw_zero hv]
  have hrel := statScoreRel_fold hrel0 (sortByDate ss)
  have hsc := hrel p.id q hq
  refine ⟨q, ?_, ?_⟩
  · unfold recalculatePlayerStats
    exact find_values
      (wk_foldSessions (sortByDate ss) (wk_mapFromPlayers ps)) hq
  · have hlast : (lastChartPoint ps ss).scores =
        (sortByDate ss).foldl applySessionScores (initScores ps) := by
      unfold lastChartPoint generateChartData
      rw [List.getLastD_cons]
      exact chartSteps_getLastD (sortByDate ss) (initScores ps) 0 _ rfl
    rw [hlast]
    exact hsc

/-- Witness for C4 on a one-player roster with no sessions: the final
(and only) chart point scores the player at `0`, its recomputed
`totalWinnings`. -/
theorem chart_recalc_consistency_witness :
    alistGet (lastChartPoint [⟨"c1", "Cara", none, 5, 2⟩] []).scores "c1" =
      some (some 0) := by
  obtain ⟨q, hfind, hget⟩ := chart_recalc_consistency
    [⟨"c1", "Cara", none, 5, 2⟩] [] ⟨"c1", "Cara", none, 5, 2⟩
    (List.mem_cons_self _ _)
  have hq : q = ⟨"c1", "Cara", none, 0, 0⟩ := by
    rw [show recalculatePlayerStats [⟨"c1", "Cara", none, 5, 2⟩] [] =
      [⟨"c1", "Cara", none, 0, 0⟩] from rfl] at hfind
    exact (by simpa [List.find?] using hfind : _ = q).symm
  rw [hq] at hget
  simpa using hget

/-! ### Unknown ids in the chart become NaN entries -/

theorem updateScore_get_of_ne {m : ScoreMap} {k u : String} (h : u ≠ k)
    (net : ℚ) : alistGet (updateScore m k net) u = alistGet m u := by
  unfold updateScore
  cases hm : alistGet m k with
  | none =>
    cases hu : alistGet m u with
    | none =>
      rw [alistGet_append_right hu]
      simp [alistGet, Ne.symm h]
    | some o => rw [alistGet_append_left hu]
  | some o => exact alistGet_set_ne m (fun he => h he.symm) _

theorem updateScore_get_self_none {m : ScoreMap} {k : String}
    (h : alistGet m k = none) (net : ℚ) :
    alistGet (updateScore m k net) k = some none := by
  unfold updateScore
  rw [h, alistGet_append_right h]
  simp [alistGet]

theorem updateScore_get_self_some {m : ScoreMap} {k : String} {o : Option ℚ}
    (h : alistGet m k = some o) (net : ℚ) :
    alistGet (updateScore m k net) k = some (o.map (fun v => v + net)) := by
  unfold updateScore
  rw [h, alistGet_set_self (by rw [h]; rfl)]

/-- A `NaN` chart entry is absorbing under a single record update. -/
theorem nan_absorb_record {m : ScoreMap} {u : String}
    (h : alistGet m u = some none) (r : PlayerSessionInput) :
    alistGet (updateScore m r.playerId (r.cashOut - r.buyIn)) u = some none := by
  by_cases hk : u = r.playerId
  · subst hk
    rw [updateScore_get_self_some h]
    rfl
  · rw [updateScore_get_of_ne hk]
    exact h

theorem nan_absorb_records {u : String} :
    ∀ (rs : List PlayerSessionInput) (m : ScoreMap),
      alistGet m u = some none →
      alistGet (rs.foldl (fun m r =>
        updateScore m r.playerId (r.cashOut - r.buyIn)) m) u = some none := by
  intro rs
  induction rs with
  | nil => intro m h; exact h
  | cons r rs ih =>
    intro m h
    exact ih _ (nan_absorb_record h r)

theorem nan_absorb_sessions {u : String} :
    ∀ (l : List GameSession) (m : ScoreMap),
      alistGet m u = some none →
      alistGet (l.foldl applySessionScores m) u = some none := by
  intro l
  induction l with
  | nil => intro m h; exact h
  | cons s ss ih =>
    intro m h
    exact ih _ (nan_absorb_records s.players m h)

/-- The weak invariant: an id absent from the roster is either absent
from the score map or already `NaN`. -/
theorem nan_weak_record {m : ScoreMap} {u : String}
    (h : alistGet m u = none ∨ alistGet m u = some none)
    (r : PlayerSessionInput) :
    alistGet (updateScore m r.playerId (r.cashOut - r.buyIn)) u = none ∨
      alistGet (updateScore m r.playerId (r.cashOut - r.buyIn)) u =
        some none := by
  by_cases hk : u = r.playerId
  · subst hk
    rcases h with h | h
    · right; exact updateScore_get_self_none h _
    · right
      rw [updateScore_get_self_some h]
      rfl
  · rw [updateScore_get_of_ne hk]
    exact h

theorem nan_weak_records {u : String} :
    ∀ (rs : List PlayerSessionInput) (m : ScoreMap),
      (alistGet m u = none ∨ alistGet m u = some none) →
      (alistGet (rs.foldl (fun m r =>
          updateScore m r.playerId (r.cashOut - r.buyIn)) m) u = none ∨
        alistGet (rs.foldl (fun m r =>
          updateScore m r.playerId (r.cashOut - r.buyIn)) m) u = some none) := by
  intro rs
  induction rs with
  | nil => intro m h; exact h
  | cons r rs ih =>
    intro m h
    exact ih _ (nan_weak_record h r)

theorem nan_weak_sessions {u : String} :
    ∀ (l : List GameSession) (m : ScoreMap),
      (alistGet m u = none ∨ alistGet m u = some none) →
      (alistGet (l.foldl applySessionScores m) u = none ∨
        alistGet (l.foldl applySessionScores m) u = some none) := by
  intro l
  induction l with
  | nil => intro m h; exact h
  | cons s ss ih =>
    intro m h
    exact ih _ (nan_weak_records s.players m h)

/-- A session containing a record for `u` turns `u`'s entry into `NaN`
(from absent or already-`NaN`). -/
theorem nan_hit_records {u : String} :
    ∀ (rs : List PlayerSessionInput) (m : ScoreMap),
      (alistGet m u = none ∨ alistGet m u = some none) →
      (∃ r ∈ rs, r.playerId = u) →
      alistGet (rs.foldl (fun m r =>
        updateScore m r.playerId (r.cashOut - r.buyIn)) m) u = some none := by
  intro rs
  induction rs with
  | nil => intro m _ hr; simp at hr
  | cons r rs ih =>
    intro m h hr
    rcases hr with ⟨r0, hr0, hru⟩
    rcases List.mem_cons.mp hr0 with rfl | hmem
    · rw [List.foldl_cons]
      apply nan_absorb_records
      subst hru
      rcases h with h | h
      · exact updateScore_get_self_none h _
      · rw [updateScore_get_self_some h]
        rfl
    · rw [List.foldl_cons]
      exact ih _ (nan_weak_record h r) ⟨r0, hmem, hru⟩

theorem nan_hit_session {u : String} {s : GameSession} {m : ScoreMap}
    (h : alistGet m u = none ∨ alistGet m u = some none)
    (hr : ∃ r ∈ s.players, r.playerId = u) :
    alistGet (applySessionScores m s) u = some none := by
  unfold applySessionScores
  exact nan_hit_records s.players m h hr

theorem chartSteps_getElem :
    ∀ (l : List GameSession) (cur : ScoreMap) (idx j : Nat) (pt : ChartPoint),
      (chartSteps cur l idx)[j]? = some pt →
      pt.scores = (l.take (j + 1)).foldl applySessionScores cur := by
  intro l
  induction l with
  | nil => intro cur idx j pt h; simp [chartSteps] at h
  | cons s rest ih =>
    intro cur idx j pt h
    simp only [chartSteps] at h
    cases j with
    | zero =>
      rw [List.getElem?_cons_zero, Option.some_inj] at h
      subst h
      rfl
    | succ j =>
      rw [List.getElem?_cons_succ] at h
      have := ih (applySessionScores cur s) (idx + 1) j pt h
      rw [this]
      rfl

/-- C10: if some date-sorted session at index `k` references a
`playerId` unknown to the roster, every chart point at index `> k`
carries a scores entry for that id whose value is `NaN` (modelled
`none`): `generateChartData` does not skip unknown references the way
`recalculatePlayerStats` does, and its score maps are not restricted to
the roster ids. -/
theorem chart_unknown_id_nan (ps : List Player) (ss : List GameSession)
    (u : String) (hu : u ∉ ps.map Player.id)
    (k j : Nat) (s : GameSession) (pt : ChartPoint)
    (hk : (sortByDate ss)[k]? = some s)
    (hr : ∃ r ∈ s.players, r.playerId = u)
    (hkj : k < j)
    (hpt : (generateChartData ps ss)[j]? = some pt) :
    alistGet pt.scores u = some none := by
  obtain ⟨j, rfl⟩ : ∃ j', j = j' + 1 := ⟨j - 1, by omega⟩
  rw [show generateChartData ps ss =
    ⟨"Start", initScores ps⟩ ::
      chartSteps (initScores ps) (sortByDate ss) 0 from rfl,
    List.getElem?_cons_succ] at hpt
  have hscores := chartSteps_getElem _ _ _ _ _ hpt
  have hklen : k < (sortByDate ss).length := by
    rcases List.getElem?_eq_some.mp hk with ⟨h1, _⟩
    exact h1
  have hsk : (sortByDate ss)[k] = s := by
    rcases List.getElem?_eq_some.mp hk with ⟨h1, h2⟩
    exact h2
  have hsplit : (sortByDate ss).take (j + 1) =
      (sortByDate ss).take k ++
        (((sortByDate ss).drop k).take (j + 1 - k)) := by
    rw [← List.take_add]
    congr 1
    omega
  have hdrop : (sortByDate ss).drop k = s :: (sortByDate ss).drop (k + 1) := by
    rw [List.drop_eq_getElem_cons hklen, hsk]
  have hjk : j + 1 - k = (j - k) + 1 := by omega
  rw [hscores, hsplit, hdrop, hjk, List.take_succ_cons, List.foldl_append,
    List.foldl_cons]
  apply nan_absorb_sessions
  apply nan_hit_session ?_ hr
  apply nan_weak_sessions
  left
  exact initScores_get_not_mem ps u hu

/-- Witness for C10: a roster `[a]` and one session referencing the
unknown id "u" produce a second chart point whose scores carry a `NaN`
entry for "u". -/
theorem chart_unknown_id_nan_witness :
    alistGet
      (⟨"G1", [("a", some 0), ("u", (none : Option ℚ))]⟩ : ChartPoint).scores
      "u" = some none := by
  exact chart_unknown_id_nan [⟨"a", "Al", none, 0, 0⟩]
    [⟨"s1", 0, [⟨"u", 1, 0⟩], []⟩] "u" (by simp) 0 1
    ⟨"s1", 0, [⟨"u", 1, 0⟩], []⟩ _ rfl ⟨⟨"u", 1, 0⟩, by simp, rfl⟩
    (by omega) rfl
